import Mathlib

/-!
Verification development for a "recently opened in VS Code" launcher extension
(single source file `main.py`).

Modelling conventions:
* Python strings are modelled as lists of code points (`Str := List Nat`);
  `str.lower()` is modelled as the code-point-wise ASCII lowering `lowerCode`
  (the only case folding the program's data exercises).
* Python floats are modelled as exact rationals (`ℚ`); all score constants of
  the program (1, 0.99, 0.9, 0.8, 0.17, 0.999, 0.9999, 1.02, 0.1) are exact
  decimal fractions, so no rounding behaviour is lost.
* Fallible code (out-of-range string indexing, database read errors) is
  modelled with `Option`/`Except`.
* The memoisation dictionary of `command_score` caches a pure function of the
  position pair, so it does not change results and is dropped from the model.
* File-system paths for the resolver are modelled as plain `String`s and the
  file system as the list of existing paths.
-/

/- The Batteries arithmetic on `Rat` is marked irreducible, which blocks
`decide`-style evaluation; restore default reducibility locally. -/
attribute [local semireducible] Rat.mul Rat.add Rat.sub Rat.inv

/-- Python strings as sequences of code points. -/
abbrev Str := List Nat

/-- Code-point-wise model of `str.lower()` (ASCII range, which covers every
constant the program compares against). -/
def lowerCode (c : Nat) : Nat := if 65 ≤ c ∧ c ≤ 90 then c + 32 else c

/-- `s.lower()` for a whole string. -/
def lowerStr (s : Str) : Str := s.map lowerCode

/-- Code points matched by `IS_SPACE_REGEXP = re.compile(r"[\s-]")` on a single
character: space, tab, LF, VT, FF, CR, hyphen (main.py line 44). -/
def spaceCodes : List Nat := [32, 9, 10, 11, 12, 13, 45]

/-- Code points matched by the gap regex (main.py line 43): backslash, slash,
underscore, plus, dot, hash, double quote, at sign, left bracket, left paren,
left brace, ampersand. -/
def gapCodes : List Nat := [92, 47, 95, 43, 46, 35, 34, 64, 91, 40, 123, 38]

/-- Single-character test of the space regex. -/
def isSpaceCode (c : Nat) : Bool := spaceCodes.contains c

/-- Single-character test of the gap regex. -/
def isGapCode (c : Nat) : Bool := gapCodes.contains c

/-- All indices `i ≥ fromIdx` with `l[i] = c`, in increasing order: exactly the
indices visited by the `while index != -1` loop over `lower_string.find`
(main.py lines 67-96). -/
def findOccurrences (c : Nat) (l : Str) (fromIdx : Nat) : List Nat :=
  (List.range l.length).filter (fun i => decide (fromIdx ≤ i) && decide (l.getD i 0 = c))

/-- The adjacency factor applied to one candidate occurrence `idx` when the
scan position is `si` (main.py lines 73-85): 1 for a continuous match, 0.9
after a space/hyphen, 0.8 after a gap character, otherwise 0.17 with a
`0.999 ^ (idx - si)` skip decay when `si > 0`. -/
def jumpFactor (lowerString : Str) (si idx : Nat) : ℚ :=
  if idx = si then 1
  else if isSpaceCode (lowerString.getD (idx - 1) 0) then mkRat 9 10
  else if isGapCode (lowerString.getD (idx - 1) 0) then mkRat 8 10
  else if 0 < si then mkRat 17 100 * (mkRat 999 1000) ^ (idx - si) else mkRat 17 100

/-- Weighting of one occurrence: the recursive score `t0` is multiplied by the
jump factor and, if the original-case characters differ, by the 0.9999 case
penalty. The access `string[index]` (main.py line 88) is out of range exactly
when `idx ≥ len(string)` (the index can point into the appended alias/space
suffix); the model returns `none` there. -/
def matchStep (string : Str) (qc : Nat) (lowerString : Str) (si : Nat) (t0 : ℚ)
    (idx : Nat) : Option ℚ :=
  if idx < string.length then
    let t1 := t0 * jumpFactor lowerString si idx
    some (if string.getD idx 0 ≠ qc then t1 * mkRat 9999 10000 else t1)
  else none

/-- The `while` loop of `score` (main.py lines 70-96): fold over the occurrence
indices, keeping the running maximum `acc` (`high_score`), aborting on an
out-of-range access. `cont` is the recursive score at the next query index. -/
def matchLoop (string : Str) (qc : Nat) (lowerString : Str) (cont : Nat → Option ℚ)
    (si : Nat) : List Nat → ℚ → Option ℚ
  | [], acc => some acc
  | idx :: rest, acc =>
    match cont (idx + 1) with
    | none => none
    | some t0 =>
      match matchStep string qc lowerString si t0 idx with
      | none => none
      | some t => matchLoop string qc lowerString cont si rest (max acc t)

/-- The recursive `score(string_index, abbr_index)` of `command_score`, with
the remaining original-case query suffix in place of `abbr_index` (memoisation
dropped: it caches a pure function). Base case per main.py lines 61-62. -/
def scoreFrom (string lowerString : Str) : Str → Nat → Option ℚ
  | [] => fun si => some (if si = string.length then 1 else mkRat 99 100)
  | qc :: qs => fun si =>
    matchLoop string qc lowerString (scoreFrom string lowerString qs) si
      (findOccurrences (lowerCode qc) lowerString si) 0

/-- `command_score(string, abbreviation, aliases)` (main.py lines 29-103).
The matcher scans `(string + " " + " ".join(aliases)).lower()` but indexes the
original `string` for the case-mismatch test. -/
def command_score (string abbreviation : Str) (aliases : List Str) : Option ℚ :=
  scoreFrom string (lowerStr (string ++ [32] ++ List.intercalate [32] aliases))
    abbreviation 0

/- ### Recents loader / normalisation -/

/-- Fixed strings used by the loader and ranker. -/
def strFolder : String := "folder"

/-- Entry kind string for files. -/
def strFile : String := "file"

/-- Entry kind string for workspaces. -/
def strWorkspace : String := "workspace"

/-- Icon tag shared by folder entries. -/
def strIcon : String := "icon"

/-- Launch flag for folder kinds. -/
def strOptFolder : String := "--folder-uri"

/-- Launch flag for file and workspace kinds. -/
def strOptFile : String := "--file-uri"

/-- The empty string (Python falsy). -/
def strEmpty : String := ""

/-- One raw record of the recently-opened list: the three duck-typed shape
markers (`folderUri`, `fileUri`, `workspace.configPath`), plus the optional
upstream `label` (main.py lines 241-262). -/
structure RawPath where
  folderUri : Option Str
  fileUri : Option Str
  workspaceConfigPath : Option Str
  label : Option Str
deriving DecidableEq

/-- A normalised entry as built by `parse_entry_paths` (main.py lines 263-271):
the dict with keys `uri`, `label`, `icon`, `option`, `type`. -/
structure Recent where
  uri : Str
  label : Str
  icon : String
  option : String
  rtype : String
deriving DecidableEq

/-- Normalisation of a single raw record: the `if/elif` chain over the three
shape markers (main.py lines 243-260); unrecognised records are skipped
(`none`). The label defaults to `uri.split("/")[-1]` when absent
(main.py line 262). -/
def parseOne (p : RawPath) : Option Recent :=
  let base :=
    match p.folderUri with
    | some uri => some (uri, strIcon, strOptFolder, strFolder)
    | none =>
      match p.fileUri with
      | some uri => some (uri, strFile, strOptFile, strFile)
      | none =>
        match p.workspaceConfigPath with
        | some cp => some (cp, strWorkspace, strOptFile, strWorkspace)
        | none => none
  base.map fun q =>
    let label :=
      match p.label with
      | some l => l
      | none => (q.1.splitOn 47).getLastD []
    ⟨q.1, label, q.2.1, q.2.2.1, q.2.2.2⟩

/-- `Code.parse_entry_paths(entries, include_types)` (main.py lines 238-277):
normalise every recognised record, then retain only the entries whose `type`
is in `include_types`. -/
def parse_entry_paths (entries : List RawPath) (include_types : List String) :
    List Recent :=
  (entries.filterMap parseOne).filter fun r => decide (r.rtype ∈ include_types)

/- ### Cache and load pipeline -/

/-- The class-level cache of `Code` (main.py lines 122-123): the cached entry
list (initially `None`, modelled as `none`) and the load timestamp. Timestamps are
rationals standing for `time.time()` floats. -/
structure CacheState where
  cachedRecents : Option (List Recent)
  cacheTimestamp : ℚ
deriving DecidableEq

/-- `Code._cache_duration = 60` (main.py line 124). -/
def cacheDuration : ℚ := 60

/-- Python truthiness of `Code._cached_recents`: `None` and the empty list are
falsy (main.py line 181). -/
def cacheTruthy : Option (List Recent) → Bool
  | none => false
  | some [] => false
  | some (_ :: _) => true

/-- The environment a single load runs against: whether the global-state
database (`state.vscdb`) and the legacy `storage.json` exist, the outcome of
reading+parsing the database, and the parsed contents of the legacy file. -/
structure SourceEnv where
  globalStateExists : Bool
  globalStateRead : Except Unit (List RawPath)
  storageJsonExists : Bool
  legacyRead : List RawPath

instance exceptDecidableEq {ε α : Type} [DecidableEq ε] [DecidableEq α] :
    DecidableEq (Except ε α)
  | .error a, .error b =>
    if h : a = b then isTrue (congrArg Except.error h)
    else isFalse fun hc => h (Except.error.inj hc)
  | .error _, .ok _ => isFalse fun hc => Except.noConfusion hc
  | .ok _, .error _ => isFalse fun hc => Except.noConfusion hc
  | .ok a, .ok b =>
    if h : a = b then isTrue (congrArg Except.ok h)
    else isFalse fun hc => h (Except.ok.inj hc)

/-- `Code.get_recents_global_state` (main.py lines 212-224): read the fixed
key from the key-value store and normalise, propagating read/parse failure. -/
def get_recents_global_state (env : SourceEnv) (include_types : List String) :
    Except Unit (List Recent) :=
  match env.globalStateRead with
  | .ok raw => .ok (parse_entry_paths raw include_types)
  | .error e => .error e

/-- `Code.get_recents_legacy` (main.py lines 226-236): parse `storage.json`
and normalise. -/
def get_recents_legacy (env : SourceEnv) (include_types : List String) :
    List Recent :=
  parse_entry_paths env.legacyRead include_types

/-- The load path of `Code.get_recents` (main.py lines 187-204): try the
global-state database when it exists, swallowing its failure only when
`storage.json` exists; then, if no entries were produced and `storage.json`
exists, read the legacy store. -/
def loadRecents (env : SourceEnv) (include_types : List String) :
    Except Unit (List Recent) :=
  let step1 : Except Unit (List Recent) :=
    if env.globalStateExists then
      match get_recents_global_state env include_types with
      | .ok r => .ok r
      | .error e => if env.storageJsonExists then .ok [] else .error e
    else .ok []
  match step1 with
  | .error e => .error e
  | .ok recents0 =>
    .ok (if recents0.isEmpty ∧ env.storageJsonExists then
      get_recents_legacy env include_types else recents0)

/-- `Code.get_recents` (main.py lines 177-210), as a function of the explicit
cache state, environment, configured `include_types` and current time.
Returns the result (or propagated error), the post-call cache state, and how
many times the load path (a source read) ran (0 or 1). On a load failure the
cache-updating assignments (lines 207-208) are not reached, so the pre-call
state is returned unchanged. Both `time.time()` calls of one invocation are
modelled as the same instant `now`. -/
def get_recents (st : CacheState) (env : SourceEnv) (include_types : List String)
    (now : ℚ) : Except Unit (List Recent) × CacheState × Nat :=
  if cacheTruthy st.cachedRecents = true ∧ now - st.cacheTimestamp < cacheDuration then
    (.ok (st.cachedRecents.getD []), st, 0)
  else
    match loadRecents env include_types with
    | .error e => (.error e, st, 1)
    | .ok recents => (.ok recents, ⟨some recents, now⟩, 1)

/- ### Ranker -/

/-- A transient scored candidate (`{"recent": ..., "score": ...}`,
main.py line 344). -/
structure ScoredRecent where
  recent : Recent
  score : ℚ
deriving DecidableEq

/-- The scoring/filter loop of `get_ext_result_items` (main.py lines 332-344):
score label and uri, apply the 1.02 preferred-type boost to the label score,
and keep the entry with value `max label_score, uri_score` when either score
exceeds 0.1. `preferType` is the configured `prefer_type` string (empty string
models the falsy unset value). -/
def scoreRecents (query : Str) (preferType : String) :
    List Recent → Option (List ScoredRecent)
  | [] => some []
  | r :: rs =>
    match command_score r.label query [] with
    | none => none
    | some ls0 =>
      match command_score r.uri query [] with
      | none => none
      | some us =>
        let ls := if preferType ≠ strEmpty ∧ r.rtype = preferType
          then ls0 * mkRat 102 100 else ls0
        match scoreRecents query preferType rs with
        | none => none
        | some rest =>
          if mkRat 1 10 < ls ∨ mkRat 1 10 < us
          then some (⟨r, max ls us⟩ :: rest) else some rest

/-- Stable descending insertion: `x` is placed before the first element whose
score is not larger, so earlier-listed entries precede later ones on ties. -/
def insertDesc (x : ScoredRecent) : List ScoredRecent → List ScoredRecent
  | [] => [x]
  | y :: ys => if x.score < y.score then y :: insertDesc x ys else x :: y :: ys

/-- Model of `sorted(data, key=lambda x: x["score"], reverse=True)`
(main.py line 347): Python's sort is stable, and `reverse=True` flips the key
comparison while preserving the original order of equal keys; a stable
descending insertion sort realises exactly that specification. -/
def sortDesc : List ScoredRecent → List ScoredRecent
  | [] => []
  | x :: xs => insertDesc x (sortDesc xs)

/-- The ranking core of `CodeExtension.get_ext_result_items`
(main.py lines 321-349): lower the query (`query.lower() if query else ""`,
the identity on the empty string), score and filter every entry, sort by
descending score, truncate to 15 (`data[:15]`). Rendering of the retained
candidates is outside the core. -/
def get_ext_result_core (recents : List Recent) (query : Str) (preferType : String) :
    Option (List ScoredRecent) :=
  match scoreRecents (lowerStr query) preferType recents with
  | none => none
  | some data => some ((sortDesc data).take 15)

/- ### Source resolver -/

/-- `Code.path_dirs` (main.py line 118). -/
def dirUsrBin : String := "/usr/bin"

/-- Second installation directory candidate. -/
def dirBin : String := "/bin"

/-- Third installation directory candidate. -/
def dirSnapBin : String := "/snap/bin"

/-- The two product variants, `Code.variants` (main.py line 119). -/
inductive Variant
  | code
  | codium
deriving DecidableEq

/-- `variant.lower()`, the executable name of a variant (main.py line 137). -/
def variantBinary : Variant → String
  | .code => "code"
  | .codium => "codium"

/-- The configuration directory name of a variant (main.py lines 140-143). -/
def variantConfig : Variant → String
  | .code => "Code"
  | .codium => "VSCodium"

/-- `Code.path_dirs` as a list. -/
def path_dirs : List String := [dirUsrBin, dirBin, dirSnapBin]

/-- `Code.variants` as a list. -/
def variants : List Variant := [Variant.code, Variant.codium]

/-- Path separator. -/
def strSlash : String := "/"

/-- The `~/.config/` prefix under the home directory. -/
def strConfigDir : String := "/.config/"

/-- Relative path of the legacy store inside a config directory. -/
def strStorageJson : String := "/User/globalStorage/storage.json"

/-- Relative path of the key-value store inside a config directory. -/
def strStateDb : String := "/User/globalStorage/state.vscdb"

/-- The resolved installation descriptor set by `Code.__init__` on success
(main.py lines 162-169). -/
structure Resolved where
  installed_path : String
  config_path : String
  global_state_db : String
  storage_json : String
deriving DecidableEq

/-- The descriptor built for a directory/variant combination. -/
def mkResolved (home : String) (dir : String) (v : Variant) : Resolved :=
  let cfg := home ++ strConfigDir ++ variantConfig v
  ⟨dir ++ strSlash ++ variantBinary v, cfg, cfg ++ strStateDb, cfg ++ strStorageJson⟩

/-- One iteration of the inner loop of `Code.__init__` (main.py lines 135-170):
skip when the executable is missing, otherwise require the executable, the
config directory and the config directory's `storage.json` to exist. The file
system is the list `fs` of existing paths. -/
def tryVariant (home : String) (fs : List String) (dir : String) (v : Variant) :
    Option Resolved :=
  if (dir ++ strSlash ++ variantBinary v) ∈ fs then
    let cfg := home ++ strConfigDir ++ variantConfig v
    if (dir ++ strSlash ++ variantBinary v) ∈ fs ∧ cfg ∈ fs ∧
        (cfg ++ strStorageJson) ∈ fs then
      some (mkResolved home dir v)
    else none
  else none

/-- The inner `for variant in Code.variants` loop. -/
def resolveVariants (home : String) (fs : List String) (dir : String) :
    List Variant → Option Resolved
  | [] => none
  | v :: vs =>
    match tryVariant home fs dir v with
    | some r => some r
    | none => resolveVariants home fs dir vs

/-- The outer `for path in Code.path_dirs` loop. -/
def resolveDirs (home : String) (fs : List String) : List String → Option Resolved
  | [] => none
  | d :: ds =>
    match resolveVariants home fs d variants with
    | some r => some r
    | none => resolveDirs home fs ds

/-- `Code.__init__` (main.py lines 126-172): first success over directory
candidates crossed with variants, `none` when unresolved. -/
def resolveCode (home : String) (fs : List String) : Option Resolved :=
  resolveDirs home fs path_dirs

/-- The ordered list of directory/variant combinations the spec describes
("installation directory candidates × product name variants in their fixed
order"). -/
def combosList : List (String × Variant) :=
  path_dirs.foldr (fun d acc => (variants.map fun v => (d, v)) ++ acc) []

/-- Modelled from the spec: a combination is accepted when the executable
exists, the matching configuration directory exists, and that directory
contains the legacy-store file `storage.json`. -/
def comboFound (home : String) (fs : List String) (p : String × Variant) : Bool :=
  decide ((p.1 ++ strSlash ++ variantBinary p.2) ∈ fs) &&
  decide ((home ++ strConfigDir ++ variantConfig p.2) ∈ fs) &&
  decide ((home ++ strConfigDir ++ variantConfig p.2 ++ strStorageJson) ∈ fs)

/-- Modelled from the spec: the claimed acceptance condition of C3, with the
checked file being the primary key-value store (`state.vscdb`, "the key-value
store the Loader reads first") instead of `storage.json`. -/
def comboFoundPrimary (home : String) (fs : List String) (p : String × Variant) : Bool :=
  decide ((p.1 ++ strSlash ++ variantBinary p.2) ∈ fs) &&
  decide ((home ++ strConfigDir ++ variantConfig p.2) ∈ fs) &&
  decide ((home ++ strConfigDir ++ variantConfig p.2 ++ strStateDb) ∈ fs)

/-- Modelled from the spec: resolution as "the first combination for which
`comboFound` holds", mapped to the resolved descriptor. -/
def specResolve (home : String) (fs : List String) : Option Resolved :=
  (combosList.find? (comboFound home fs)).map fun p => mkResolved home p.1 p.2

/- ### Concrete inputs used by counterexamples and witnesses -/

/-- Code points of the string "foo-bar". -/
def sFooBar : Str := [102, 111, 111, 45, 98, 97, 114]

/-- Code points of the string "fobar". -/
def sFobar : Str := [102, 111, 98, 97, 114]

/-- Code points of the query "fb". -/
def sFb : Str := [102, 98]

/-- Code points of the string "a b" (it contains a space). -/
def sASpaceB : Str := [97, 32, 98]

/-- An environment with no readable source at all: every load yields `[]`. -/
def envTrivial : SourceEnv := ⟨false, .ok [], false, []⟩

/-- A raw folder record with location "a" and no upstream label. -/
def rawFolderA : RawPath := ⟨some [97], none, none, none⟩

/-- The entry `parse_entry_paths` builds from `rawFolderA`. -/
def recFolderA : Recent := ⟨[97], [97], strIcon, strOptFolder, strFolder⟩

/-- An environment whose global-state database holds exactly `rawFolderA`. -/
def envFolderA : SourceEnv := ⟨true, .ok [rawFolderA], false, []⟩

/-- An environment whose global-state read fails and no legacy store exists. -/
def envFailNoLegacy : SourceEnv := ⟨true, .error (), false, []⟩

/-- An environment whose global-state read fails while a legacy store with one
file record exists. -/
def envFailLegacy : SourceEnv := ⟨true, .error (), true, [⟨none, some [98], none, none⟩]⟩

/-- A raw folder record whose location "a/" ends with a slash. -/
def rawTrailingSlash : RawPath := ⟨some [97, 47], none, none, none⟩

/-- A sample home directory for the resolver. -/
def homeH : String := "/h"

/-- A file system holding the executable, the config directory and the primary
key-value store `state.vscdb` of the Code variant, but no `storage.json`. -/
def fsPrimaryOnly : List String :=
  [dirUsrBin ++ strSlash ++ variantBinary Variant.code,
   homeH ++ strConfigDir ++ variantConfig Variant.code,
   homeH ++ strConfigDir ++ variantConfig Variant.code ++ strStateDb]

/-! ## Lemmas about the scorer -/

/-- Only the space lowers to a space under ASCII lowering. -/
lemma lowerCode_eq_space {c : Nat} : lowerCode c = 32 ↔ c = 32 := by
  unfold lowerCode
  split <;> omega

/-- Membership in the occurrence list. -/
lemma mem_findOccurrences {c : Nat} {l : Str} {fromIdx i : Nat} :
    i ∈ findOccurrences c l fromIdx ↔ i < l.length ∧ fromIdx ≤ i ∧ l.getD i 0 = c := by
  simp [findOccurrences, List.mem_filter, List.mem_range, and_assoc]

/-- The matcher string of `command_score` with no aliases has one extra
position, holding the appended space. -/
lemma matcher_length (s : Str) : (lowerStr (s ++ [32])).length = s.length + 1 := by
  simp [lowerStr]

/-- Positions inside `s` in the matcher string hold the lowered character. -/
lemma matcher_getD_lt (s : Str) {i : Nat} (h : i < s.length) :
    (lowerStr (s ++ [32])).getD i 0 = lowerCode (s.getD i 0) := by
  cases hg : s[i]? with
  | none =>
    rw [List.getElem?_eq_none_iff] at hg
    omega
  | some a =>
    have h1 : (s ++ [32])[i]? = some a := by
      rw [List.getElem?_append, if_pos h]
      exact hg
    have h2 : (lowerStr (s ++ [32]))[i]? = some (lowerCode a) := by
      rw [lowerStr, List.getElem?_map, h1]
      rfl
    rw [List.getD_eq_getElem?_getD, h2, List.getD_eq_getElem?_getD, hg]
    rfl

/-- The final position of the matcher string holds the appended space. -/
lemma matcher_getD_last (s : Str) :
    (lowerStr (s ++ [32])).getD s.length 0 = 32 := by
  have h1 : (s ++ [32])[s.length]? = some 32 := by
    rw [List.getElem?_append, if_neg (lt_irrefl _), Nat.sub_self]
    rfl
  have h2 : (lowerStr (s ++ [32]))[s.length]? = some (lowerCode 32) := by
    rw [lowerStr, List.getElem?_map, h1]
    rfl
  rw [List.getD_eq_getElem?_getD, h2]
  decide

/-- Every jump factor is nonnegative. -/
lemma jumpFactor_nonneg (L : Str) (si idx : Nat) : 0 ≤ jumpFactor L si idx := by
  unfold jumpFactor
  split
  · exact zero_le_one
  split
  · decide
  split
  · decide
  split
  · exact mul_nonneg (by decide) (pow_nonneg (by decide) _)
  · decide

/-- Every jump factor is at most one. -/
lemma jumpFactor_le_one (L : Str) (si idx : Nat) : jumpFactor L si idx ≤ 1 := by
  unfold jumpFactor
  split
  · exact le_refl 1
  split
  · decide
  split
  · decide
  split
  · calc mkRat 17 100 * (mkRat 999 1000) ^ (idx - si)
        ≤ 1 * 1 := mul_le_mul (by decide) (pow_le_one₀ (by decide) (by decide))
          (pow_nonneg (by decide) _) zero_le_one
      _ = 1 := one_mul 1
  · decide

/-- A successful `matchStep` keeps scores inside the unit interval. -/
lemma matchStep_bound {string : Str} {qc : Nat} {L : Str} {si : Nat} {t0 t : ℚ}
    {idx : Nat} (h0 : 0 ≤ t0) (h1 : t0 ≤ 1)
    (h : matchStep string qc L si t0 idx = some t) : 0 ≤ t ∧ t ≤ 1 := by
  unfold matchStep at h
  split at h
  case isFalse => exact absurd h (by simp)
  case isTrue hlt =>
    have hf0 := jumpFactor_nonneg L si idx
    have hf1 := jumpFactor_le_one L si idx
    have hm0 : 0 ≤ t0 * jumpFactor L si idx := mul_nonneg h0 hf0
    have hm1 : t0 * jumpFactor L si idx ≤ 1 := by
      calc t0 * jumpFactor L si idx ≤ 1 * 1 := mul_le_mul h1 hf1 hf0 zero_le_one
        _ = 1 := one_mul 1
    simp only [Option.some.injEq] at h
    subst h
    split
    · constructor
      · exact mul_nonneg hm0 (by decide)
      · calc t0 * jumpFactor L si idx * mkRat 9999 10000
            ≤ 1 * 1 := mul_le_mul hm1 (by decide) (by decide) zero_le_one
          _ = 1 := one_mul 1
    · exact ⟨hm0, hm1⟩

/-- The loop only ever raises its accumulator. -/
lemma matchLoop_mono {string : Str} {qc : Nat} {L : Str} {cont : Nat → Option ℚ}
    {si : Nat} : ∀ (idxs : List Nat) (acc x : ℚ),
    matchLoop string qc L cont si idxs acc = some x → acc ≤ x := by
  intro idxs
  induction idxs with
  | nil =>
    intro acc x h
    simp only [matchLoop, Option.some.injEq] at h
    exact le_of_eq h
  | cons i rest ih =>
    intro acc x h
    cases hc : cont (i + 1) with
    | none => simp only [matchLoop, hc] at h; exact Option.noConfusion h
    | some t0 =>
      cases hs : matchStep string qc L si t0 i with
      | none => simp only [matchLoop, hc, hs] at h; exact Option.noConfusion h
      | some t =>
        simp only [matchLoop, hc, hs] at h
        exact le_trans (le_max_left acc t) (ih (max acc t) x h)

/-- The loop result dominates the weighted score of every occurrence. -/
lemma matchLoop_ge {string : Str} {qc : Nat} {L : Str} {cont : Nat → Option ℚ}
    {si : Nat} : ∀ (idxs : List Nat) (acc x : ℚ),
    matchLoop string qc L cont si idxs acc = some x →
    ∀ i t0 t, i ∈ idxs → cont (i + 1) = some t0 →
      matchStep string qc L si t0 i = some t → t ≤ x := by
  intro idxs
  induction idxs with
  | nil =>
    intro acc x _ i t0 t hi
    exact absurd hi (List.not_mem_nil i)
  | cons j rest ih =>
    intro acc x h i t0 t hi hc hs
    rcases List.mem_cons.mp hi with hij | hir
    · subst hij
      simp only [matchLoop, hc, hs] at h
      exact le_trans (le_max_right acc t) (matchLoop_mono rest (max acc t) x h)
    · cases hc2 : cont (j + 1) with
      | none => simp only [matchLoop, hc2] at h; exact Option.noConfusion h
      | some u0 =>
        cases hs2 : matchStep string qc L si u0 j with
        | none => simp only [matchLoop, hc2, hs2] at h; exact Option.noConfusion h
        | some u =>
          simp only [matchLoop, hc2, hs2] at h
          exact ih (max acc u) x h i t0 t hir hc hs

/-- The loop keeps scores inside the unit interval. -/
lemma matchLoop_bound {string : Str} {qc : Nat} {L : Str} {cont : Nat → Option ℚ}
    {si : Nat} (hcont : ∀ j u, cont j = some u → 0 ≤ u ∧ u ≤ 1) :
    ∀ (idxs : List Nat) (acc x : ℚ), 0 ≤ acc → acc ≤ 1 →
    matchLoop string qc L cont si idxs acc = some x → 0 ≤ x ∧ x ≤ 1 := by
  intro idxs
  induction idxs with
  | nil =>
    intro acc x h0 h1 h
    simp only [matchLoop, Option.some.injEq] at h
    exact h ▸ ⟨h0, h1⟩
  | cons i rest ih =>
    intro acc x h0 h1 h
    cases hc : cont (i + 1) with
    | none => simp only [matchLoop, hc] at h; exact Option.noConfusion h
    | some t0 =>
      cases hs : matchStep string qc L si t0 i with
      | none => simp only [matchLoop, hc, hs] at h; exact Option.noConfusion h
      | some t =>
        simp only [matchLoop, hc, hs] at h
        obtain ⟨ht0, ht1⟩ := matchStep_bound (hcont _ _ hc).1 (hcont _ _ hc).2 hs
        exact ih (max acc t) x (le_trans h0 (le_max_left acc t)) (max_le h1 ht1) h

/-- The loop succeeds when the continuation is total and every occurrence
index lies inside the original string. -/
lemma matchLoop_total {string : Str} {qc : Nat} {L : Str} {cont : Nat → Option ℚ}
    {si : Nat} (hcont : ∀ j, ∃ u, cont j = some u) :
    ∀ (idxs : List Nat), (∀ i ∈ idxs, i < string.length) →
    ∀ acc, ∃ x, matchLoop string qc L cont si idxs acc = some x := by
  intro idxs
  induction idxs with
  | nil => exact fun _ acc => ⟨acc, rfl⟩
  | cons i rest ih =>
    intro hlt acc
    obtain ⟨t0, ht0⟩ := hcont (i + 1)
    have hi : i < string.length := hlt i (List.mem_cons_self i rest)
    have hs : matchStep string qc L si t0 i =
        some (if string.getD i 0 ≠ qc
          then t0 * jumpFactor L si i * mkRat 9999 10000
          else t0 * jumpFactor L si i) := by
      unfold matchStep
      rw [if_pos hi]
    obtain ⟨x, hx⟩ := ih (fun j hj => hlt j (List.mem_cons_of_mem i hj))
      (max acc (if string.getD i 0 ≠ qc
        then t0 * jumpFactor L si i * mkRat 9999 10000
        else t0 * jumpFactor L si i))
    refine ⟨x, ?_⟩
    simp only [matchLoop, ht0, hs]
    exact hx

/-- The loop fails when the continuation is total but some occurrence index
falls outside the original string (the out-of-range read of main.py line 88). -/
lemma matchLoop_err {string : Str} {qc : Nat} {L : Str} {cont : Nat → Option ℚ}
    {si : Nat} (hcont : ∀ j, ∃ u, cont j = some u) :
    ∀ (idxs : List Nat) (acc : ℚ), (∃ i ∈ idxs, ¬ i < string.length) →
    matchLoop string qc L cont si idxs acc = none := by
  intro idxs
  induction idxs with
  | nil =>
    intro acc h
    obtain ⟨i, hi, _⟩ := h
    exact absurd hi (List.not_mem_nil i)
  | cons j rest ih =>
    intro acc h
    obtain ⟨t0, ht0⟩ := hcont (j + 1)
    by_cases hj : j < string.length
    · have hs : matchStep string qc L si t0 j =
          some (if string.getD j 0 ≠ qc
            then t0 * jumpFactor L si j * mkRat 9999 10000
            else t0 * jumpFactor L si j) := by
        unfold matchStep
        rw [if_pos hj]
      simp only [matchLoop, ht0, hs]
      apply ih
      obtain ⟨i, hi, hilt⟩ := h
      rcases List.mem_cons.mp hi with hij | hir
      · exact absurd (hij ▸ hj) hilt
      · exact ⟨i, hir, hilt⟩
    · have hs : matchStep string qc L si t0 j = none := by
        unfold matchStep
        rw [if_neg hj]
      simp only [matchLoop, ht0, hs]

/-- Every successful score lies in the unit interval: all branch factors and
both base-case constants are at most one. -/
lemma scoreFrom_bound {string L : Str} : ∀ (q : Str) (si : Nat) (x : ℚ),
    scoreFrom string L q si = some x → 0 ≤ x ∧ x ≤ 1 := by
  intro q
  induction q with
  | nil =>
    intro si x h
    simp only [scoreFrom, Option.some.injEq] at h
    subst h
    split
    · exact ⟨zero_le_one, le_refl 1⟩
    · exact ⟨by decide, by decide⟩
  | cons qc qs ih =>
    intro si x h
    rw [scoreFrom] at h
    exact matchLoop_bound (fun j u hj => ih j u hj) _ 0 x (le_refl 0) zero_le_one h

/-- Occurrence indices found in the matcher string of a no-alias call stay
inside the original string as long as the query character is not a space. -/
lemma occurrence_lt_length {s : Str} {qc : Nat} (hqc : qc ≠ 32) {si i : Nat}
    (hi : i ∈ findOccurrences (lowerCode qc) (lowerStr (s ++ [32])) si) :
    i < s.length := by
  obtain ⟨hlen, _, hval⟩ := mem_findOccurrences.mp hi
  rw [matcher_length] at hlen
  rcases Nat.lt_or_ge i s.length with h | h
  · exact h
  · have hie : i = s.length := by omega
    rw [hie, matcher_getD_last] at hval
    exact absurd (lowerCode_eq_space.mp hval.symm) hqc

/-- When no query character is a space, the no-alias score is total. -/
lemma scoreFrom_total {s : Str} : ∀ (q : Str), (∀ c ∈ q, c ≠ 32) →
    ∀ si, ∃ x, scoreFrom s (lowerStr (s ++ [32])) q si = some x := by
  intro q
  induction q with
  | nil => exact fun _ si => ⟨if si = s.length then 1 else mkRat 99 100, rfl⟩
  | cons qc qs ih =>
    intro hq si
    have hcont := ih fun c hc => hq c (List.mem_cons_of_mem qc hc)
    obtain ⟨x, hx⟩ := matchLoop_total hcont
      (findOccurrences (lowerCode qc) (lowerStr (s ++ [32])) si)
      (fun i hi => occurrence_lt_length (hq qc (List.mem_cons_self qc qs)) hi) 0
    exact ⟨x, by rw [scoreFrom]; exact hx⟩

/-- A single-space query always dereferences the appended-space position of
the matcher string and therefore always fails (main.py lines 47, 62, 88). -/
lemma scoreFrom_space (s : Str) :
    scoreFrom s (lowerStr (s ++ [32])) [32] 0 = none := by
  rw [scoreFrom]
  apply matchLoop_err
  · exact fun j => ⟨if j = s.length then 1 else mkRat 99 100, rfl⟩
  · refine ⟨s.length, ?_, lt_irrefl s.length⟩
    refine mem_findOccurrences.mpr ⟨?_, Nat.zero_le _, ?_⟩
    · rw [matcher_length]
      omega
    · rw [matcher_getD_last]
      rfl

/-- The continuous diagonal match: scoring the suffix `s.drop k` from position
`k` yields exactly 1 when `s` contains no space. -/
lemma scoreFrom_diag {s : Str} (hs : 32 ∉ s) : ∀ (q : Str) (k : Nat),
    k ≤ s.length → s.drop k = q →
    scoreFrom s (lowerStr (s ++ [32])) q k = some 1 := by
  intro q
  induction q with
  | nil =>
    intro k hk hdrop
    have hlen : s.length ≤ k := List.drop_eq_nil_iff.mp hdrop
    have hke : k = s.length := le_antisymm hk hlen
    simp only [scoreFrom, hke, if_pos]
  | cons c qs ih =>
    intro k hk hdrop
    have hklt : k < s.length := by
      rcases Nat.lt_or_ge k s.length with h | h
      · exact h
      · rw [List.drop_eq_nil_iff.mpr h] at hdrop
        exact absurd hdrop (by simp)
    have hget : s[k]? = some c := by
      have h0 : (s.drop k)[0]? = some c := by
        rw [hdrop]
        exact List.getElem?_cons_zero
      rw [List.getElem?_drop] at h0
      simpa using h0
    have hgetD : s.getD k 0 = c := by
      rw [List.getD_eq_getElem?_getD, hget]
      rfl
    have hcmem : c ∈ s := List.getElem?_mem hget
    have hcne : c ≠ 32 := fun hc => hs (hc ▸ hcmem)
    have hq32 : ∀ d ∈ c :: qs, d ≠ 32 := by
      intro d hd
      have : d ∈ s := by
        rw [← hdrop] at hd
        exact (List.drop_sublist k s).mem hd
      exact fun hd32 => hs (hd32 ▸ this)
    have hdrop1 : s.drop (k + 1) = qs := by
      have : (s.drop k).drop 1 = s.drop (k + 1) := by
        rw [List.drop_drop, Nat.add_comm]
      rw [← this, hdrop]
      rfl
    have hcont1 : scoreFrom s (lowerStr (s ++ [32])) qs (k + 1) = some 1 :=
      ih (k + 1) hklt hdrop1
    have hcont_total : ∀ j, ∃ u, scoreFrom s (lowerStr (s ++ [32])) qs j = some u :=
      scoreFrom_total qs fun d hd => hq32 d (List.mem_cons_of_mem c hd)
    have hkmem : k ∈ findOccurrences (lowerCode c) (lowerStr (s ++ [32])) k := by
      refine mem_findOccurrences.mpr ⟨?_, le_refl k, ?_⟩
      · rw [matcher_length]
        omega
      · rw [matcher_getD_lt s hklt, hgetD]
    have hjf : jumpFactor (lowerStr (s ++ [32])) k k = 1 := by
      unfold jumpFactor
      rw [if_pos rfl]
    have hstep : matchStep s c (lowerStr (s ++ [32])) k 1 k = some 1 := by
      unfold matchStep
      rw [if_pos hklt, hgetD]
      simp [hjf]
    obtain ⟨x, hx⟩ := matchLoop_total hcont_total
      (findOccurrences (lowerCode c) (lowerStr (s ++ [32])) k)
      (fun i hi => occurrence_lt_length hcne hi) 0
    have hxle : x ≤ 1 :=
      (matchLoop_bound (fun j u hj => scoreFrom_bound qs j u hj)
        _ 0 x (le_refl 0) zero_le_one hx).2
    have hxge : 1 ≤ x := matchLoop_ge _ 0 x hx k 1 1 hkmem hcont1 hstep
    have hx1 : x = 1 := le_antisymm hxle hxge
    rw [scoreFrom]
    exact hx1 ▸ hx

/-- With no aliases, the matcher string is the candidate plus one space. -/
lemma matcher_no_alias (s : Str) :
    lowerStr (s ++ [32] ++ List.intercalate [32] ([] : List Str))
      = lowerStr (s ++ [32]) := by
  simp [List.intercalate]

/-- The empty-query base case of `command_score`, directly from the definition. -/
lemma command_score_empty (s : Str) :
    command_score s [] [] = some (if 0 = s.length then 1 else mkRat 99 100) := rfl

/-- Claim C4 (amended): for every non-empty string s that contains no space
character, score(s, s) = 1: the continuous match contributes factor 1 at every
step with no case penalty, every other match path is bounded by 1, and no
out-of-range access occurs. (The space restriction is forced: a space in s
makes score(s, s) raise, see the counterexample.) -/
theorem score_self_perfect (s : Str) (_hne : s ≠ []) (hsp : 32 ∉ s) :
    command_score s s [] = some 1 := by
  unfold command_score
  rw [matcher_no_alias]
  exact scoreFrom_diag hsp s 0 (Nat.zero_le _) rfl

/-- Claim C4, counterexample: for the candidate "a b" (which contains a
space), score("a b", "a b") raises an out-of-range indexing error (modelled
`none`) instead of returning 1, because the query's space also matches the
space appended to the matcher string at index len(s). -/
theorem score_self_space_counterexample :
    command_score sASpaceB sASpaceB [] = none := by decide

/-- Claim C4, witness: the amended theorem applied to the concrete candidate
"a" evaluates to a perfect score. -/
theorem score_self_perfect_witness : command_score [97] [97] [] = some 1 :=
  score_self_perfect [97] (by decide) (by decide)

/-- Claim C10: for every candidate string s, score(s, " ") fails with an
out-of-range indexing error (modelled `none`): the single-space query always
matches the space appended at index len(s) of the lowered matcher string, and
the case-mismatch test then indexes the original, unextended string there. -/
theorem score_space_query_errors (s : Str) : command_score s [32] [] = none := by
  unfold command_score
  rw [matcher_no_alias]
  exact scoreFrom_space s

/-- Claim C5: score(s, "") is the empty-query constant 0.99 for every
non-empty candidate s; consequently the ranking loop applied to the empty
query discards no entry at the 0.1 threshold — the scored list keeps every
entry of the input, in order, for any entry list and any preferred type. -/
theorem empty_query_near_one :
    (∀ s : Str, s ≠ [] → command_score s [] [] = some (mkRat 99 100)) ∧
    (∀ (recents : List Recent) (pt : String), ∃ l,
      scoreRecents [] pt recents = some l ∧
        l.map ScoredRecent.recent = recents) := by
  constructor
  · intro s hne
    rw [command_score_empty,
      if_neg fun h => hne (List.length_eq_zero.mp h.symm)]
  · intro recents pt
    induction recents with
    | nil => exact ⟨[], rfl, rfl⟩
    | cons r rs ih =>
      obtain ⟨l, hl, hmap⟩ := ih
      have hlab : command_score r.label [] []
          = some (if 0 = r.label.length then 1 else mkRat 99 100) := rfl
      have huri : command_score r.uri [] []
          = some (if 0 = r.uri.length then 1 else mkRat 99 100) := rfl
      have hv0 : (0 : ℚ) ≤ (if 0 = r.label.length then 1 else mkRat 99 100) := by
        split
        · exact zero_le_one
        · decide
      have hv : mkRat 1 10 < (if 0 = r.label.length then 1 else mkRat 99 100) := by
        split
        · decide
        · decide
      have hls : mkRat 1 10 < (if pt ≠ strEmpty ∧ r.rtype = pt
          then (if 0 = r.label.length then 1 else mkRat 99 100) * mkRat 102 100
          else (if 0 = r.label.length then 1 else mkRat 99 100)) := by
        split
        · exact lt_of_lt_of_le hv (le_mul_of_one_le_right hv0 (by decide))
        · exact hv
      have hstep : scoreRecents [] pt (r :: rs) = some (⟨r,
          max (if pt ≠ strEmpty ∧ r.rtype = pt
            then (if 0 = r.label.length then 1 else mkRat 99 100) * mkRat 102 100
            else (if 0 = r.label.length then 1 else mkRat 99 100))
          (if 0 = r.uri.length then 1 else mkRat 99 100)⟩ :: l) := by
        rw [scoreRecents]
        simp only [hlab, huri, hl]
        rw [if_pos (Or.inl hls)]
      exact ⟨_, hstep, by simp [hmap]⟩

/-- Claim C5, witness: the empty-query constant at the concrete candidate "a". -/
theorem empty_query_near_one_witness :
    command_score [97] [] [] = some (mkRat 99 100) :=
  empty_query_near_one.1 [97] (by decide)

/-- Claim C6: a word-boundary jump outscores a mid-token character jump:
score("foo-bar", "fb") = 0.99 * 0.9 = 0.891 (hyphen boundary, factor 0.9)
strictly exceeds score("fobar", "fb") = 0.99 * 0.17 * 0.999 (mid-token jump,
factor 0.17 with one skipped character decayed by 0.999). -/
theorem boundary_beats_midtoken :
    command_score sFooBar sFb [] = some (mkRat 891 1000) ∧
    command_score sFobar sFb [] = some (mkRat 1681317 10000000) ∧
    mkRat 1681317 10000000 < mkRat 891 1000 :=
  ⟨by decide, by decide, by decide⟩

/-- Claim C8 (amended): for every raw record accepted by normalisation, when
the record carries a label the Entry keeps it, and when it carries none the
Entry's label is the last slash-delimited segment of the location; that
default — and hence the label — is non-empty whenever the last slash-delimited
segment is non-empty, but the label is not non-empty in general (see the
trailing-slash counterexample). -/
theorem label_default_rule (p : RawPath) (r : Recent) (h : parseOne p = some r) :
    (p.label = none → r.label = (r.uri.splitOn 47).getLastD []) ∧
    (∀ l, p.label = some l → r.label = l) ∧
    (p.label = none → (r.uri.splitOn 47).getLastD [] ≠ [] → r.label ≠ []) := by
  rcases p with ⟨fu, fi, ws, lab⟩
  cases fu <;> cases fi <;> cases ws <;> cases lab <;>
    simp_all [parseOne] <;> subst h <;> simp

/-- Claim C8, counterexample: the accepted folder record with location "a/"
and no upstream label is normalised to an Entry whose label is the empty
string, because "a/".split("/")[-1] is empty. -/
theorem label_empty_counterexample :
    (parse_entry_paths [rawTrailingSlash] [strFolder]).map Recent.label = [[]] := by
  decide

/-- Claim C8, witness: the defaulting rule evaluated on the concrete folder
record with location "a". -/
theorem label_default_rule_witness :
    recFolderA.label = (recFolderA.uri.splitOn 47).getLastD [] :=
  (label_default_rule rawFolderA recFolderA (by decide)).1 rfl

/-- Entries surviving `parse_entry_paths` carry an allowed type. -/
lemma parse_entry_paths_types {raw : List RawPath} {it : List String} {r : Recent}
    (h : r ∈ parse_entry_paths raw it) : r.rtype ∈ it := by
  unfold parse_entry_paths at h
  exact of_decide_eq_true (List.mem_filter.mp h).2

/-- Every successful load filters by the `include_types` passed to it. -/
lemma loadRecents_types {env : SourceEnv} {it : List String} {l : List Recent}
    (h : loadRecents env it = .ok l) : ∀ r ∈ l, r.rtype ∈ it := by
  rcases env with ⟨ge, gr, sj, lr⟩
  cases ge <;> rcases gr with e | raw <;> cases sj <;>
    simp only [loadRecents, get_recents_global_state, get_recents_legacy,
      Bool.false_eq_true, if_false, if_true] at h
  all_goals try exact Except.noConfusion h
  all_goals
    injection h with h
    subst h
    intro r hr
    split at hr <;>
      first
        | exact parse_entry_paths_types hr
        | exact absurd hr (List.not_mem_nil r)

/-- Claim C2 (amended): type filtering is guaranteed on the load path: whenever
`get_recents` misses the cache (so the loader runs), every entry it returns has
a kind inside the `include_types` in force for that call. Queries answered from
a fresh, non-empty cache return the list filtered under the allow-set in force
when the cache was loaded, so a stale allow-set can leak entries of other kinds
until the cache expires (see the counterexample). -/
theorem load_path_filtering (st : CacheState) (env : SourceEnv)
    (it : List String) (now : ℚ) (l : List Recent)
    (hmiss : ¬ (cacheTruthy st.cachedRecents = true ∧
      now - st.cacheTimestamp < cacheDuration))
    (h : (get_recents st env it now).1 = .ok l) :
    ∀ r ∈ l, r.rtype ∈ it := by
  unfold get_recents at h
  rw [if_neg hmiss] at h
  cases hl : loadRecents env it with
  | error e =>
    rw [hl] at h
    exact absurd h (by simp)
  | ok l2 =>
    rw [hl] at h
    injection h with h
    exact h ▸ loadRecents_types hl

/-- Claim C2, counterexample: a cache loaded at time 0 under the allow-set
containing "folder" serves, at time 10 with the allow-set reconfigured to
contain only "file", the cached folder entry — an entry whose kind is outside
the currently configured allow-set reaches the scoring loop. -/
theorem stale_allow_set_leak :
    get_recents ⟨none, 0⟩ envFolderA [strFolder, strFile] 0
      = (.ok [recFolderA], ⟨some [recFolderA], 0⟩, 1) ∧
    get_recents ⟨some [recFolderA], 0⟩ envFolderA [strFile] 10
      = (.ok [recFolderA], ⟨some [recFolderA], 0⟩, 0) ∧
    recFolderA.rtype ∉ [strFile] := by
  refine ⟨by decide, by decide, by decide⟩

/-- Claim C2, witness: the amended filtering theorem applied to a concrete
cold-cache load under the allow-set containing "folder" and "file". -/
theorem load_path_filtering_witness :
    recFolderA.rtype ∈ [strFolder, strFile] :=
  load_path_filtering ⟨none, 0⟩ envFolderA [strFolder, strFile] 0 [recFolderA]
    (by decide) (by decide) recFolderA (by decide)

/-- Claim C1 (amended): a `get()` on a cache loaded at time t with a non-empty
entry list E, made while now - t < 60, returns E without invoking the loader
and leaves the cache unchanged; a call at or after expiry runs the loader
again. (The non-emptiness of E is forced: an empty cached list is falsy in
Python, so it is treated as an invalid cache and every call reloads — see the
counterexample.) -/
theorem cache_hit_within_ttl (E : List Recent) (t now : ℚ) (env : SourceEnv)
    (it : List String) :
    (E ≠ [] → now - t < cacheDuration →
      get_recents ⟨some E, t⟩ env it now = (.ok E, ⟨some E, t⟩, 0)) ∧
    (¬ now - t < cacheDuration →
      (get_recents ⟨some E, t⟩ env it now).2.2 = 1) := by
  constructor
  · intro hE hlt
    have htr : cacheTruthy (some E) = true := by
      cases E with
      | nil => exact absurd rfl hE
      | cons a l => rfl
    unfold get_recents
    rw [if_pos ⟨htr, hlt⟩]
    rfl
  · intro hge
    unfold get_recents
    rw [if_neg fun hc => hge hc.2]
    cases loadRecents env it with
    | error e => rfl
    | ok l => rfl

/-- Claim C1, counterexample: with a loader yielding the empty entry list, a
first call at time 0 loads and caches [], and a second call at time 1 — within
the TTL window — invokes the loader again (its load count is 1, not 0), so the
two calls perform two source reads in total: the claim fails when E is empty. -/
theorem cache_empty_list_reloads :
    get_recents ⟨none, 0⟩ envTrivial [] 0 = (.ok [], ⟨some [], 0⟩, 1) ∧
    (1 : ℚ) - 0 < cacheDuration ∧
    (get_recents ⟨some [], 0⟩ envTrivial [] 1).2.2 = 1 := by
  refine ⟨by decide, by decide, by decide⟩

/-- Claim C1, witness: the amended theorem applied to a concrete one-entry
cache within the window (no reload) and past the window (reload). -/
theorem cache_hit_within_ttl_witness :
    get_recents ⟨some [recFolderA], 0⟩ envFolderA [strFile] 1
      = (.ok [recFolderA], ⟨some [recFolderA], 0⟩, 0) ∧
    (get_recents ⟨some [recFolderA], 0⟩ envFolderA [strFile] 61).2.2 = 1 :=
  ⟨(cache_hit_within_ttl [recFolderA] 0 1 envFolderA [strFile]).1
      (by decide) (by decide),
   (cache_hit_within_ttl [recFolderA] 0 61 envFolderA [strFile]).2 (by decide)⟩

/-- Claim C9: when the primary store exists but its read fails, a cache-missing
`get_recents` with no legacy store propagates the error and leaves both cache
fields exactly as they were before the call; with a legacy store present, the
same failure instead falls back to the legacy read (and caches its result). -/
theorem primary_failure_handling (st : CacheState) (env : SourceEnv)
    (it : List String) (now : ℚ)
    (hmiss : ¬ (cacheTruthy st.cachedRecents = true ∧
      now - st.cacheTimestamp < cacheDuration))
    (hdb : env.globalStateExists = true)
    (hfail : env.globalStateRead = .error ()) :
    (env.storageJsonExists = false →
      get_recents st env it now = (.error (), st, 1)) ∧
    (env.storageJsonExists = true →
      get_recents st env it now =
        (.ok (get_recents_legacy env it),
         ⟨some (get_recents_legacy env it), now⟩, 1)) := by
  constructor
  · intro hsj
    have hload : loadRecents env it = .error () := by
      unfold loadRecents get_recents_global_state
      rw [hdb, hfail, hsj]
      rfl
    unfold get_recents
    rw [if_neg hmiss, hload]
  · intro hsj
    have hload : loadRecents env it = .ok (get_recents_legacy env it) := by
      unfold loadRecents get_recents_global_state
      rw [hdb, hfail, hsj]
      rfl
    unfold get_recents
    rw [if_neg hmiss, hload]

/-- Claim C9, witness: both failure modes evaluated on concrete environments:
the stale one-element cache is untouched and the error surfaces; with a legacy
store, the legacy entries are returned instead. -/
theorem primary_failure_handling_witness :
    get_recents ⟨some [], 5⟩ envFailNoLegacy [strFile] 100 = (.error (), ⟨some [], 5⟩, 1) ∧
    get_recents ⟨none, 0⟩ envFailLegacy [strFile] 0
      = (.ok (get_recents_legacy envFailLegacy [strFile]),
         ⟨some (get_recents_legacy envFailLegacy [strFile]), 0⟩, 1) :=
  ⟨(primary_failure_handling ⟨some [], 5⟩ envFailNoLegacy [strFile] 100
      (by decide) (by decide) (by decide)).1 (by decide),
   (primary_failure_handling ⟨none, 0⟩ envFailLegacy [strFile] 0
      (by decide) (by decide) (by decide)).2 (by decide)⟩

/-- One inner-loop iteration succeeds exactly on the spec-side acceptance
condition (with storage.json as the checked file). -/
lemma tryVariant_eq (home : String) (fs : List String) (d : String) (v : Variant) :
    tryVariant home fs d v =
      if comboFound home fs (d, v) = true then some (mkResolved home d v) else none := by
  unfold tryVariant comboFound
  by_cases h1 : (d ++ strSlash ++ variantBinary v) ∈ fs
  · by_cases h2 : (home ++ strConfigDir ++ variantConfig v) ∈ fs
    · by_cases h3 : (home ++ strConfigDir ++ variantConfig v ++ strStorageJson) ∈ fs
      · simp [h1, h2, h3]
      · simp [h1, h2, h3]
    · simp [h1, h2]
  · simp [h1]

/-- Searching an appended list finds the first hit of the left part first. -/
lemma find?_append_or {α : Type} (p : α → Bool) (l2 : List α) : ∀ l1 : List α,
    (l1 ++ l2).find? p = match l1.find? p with
      | some x => some x
      | none => l2.find? p := by
  intro l1
  induction l1 with
  | nil => rfl
  | cons a l ih =>
    by_cases h : p a = true
    · simp [List.find?_cons_of_pos _ h]
    · simp [List.find?_cons_of_neg _ h, ih]

/-- The inner variant loop is the first-hit search over the paired variants. -/
lemma resolveVariants_eq (home : String) (fs : List String) (d : String) :
    ∀ vs : List Variant,
    resolveVariants home fs d vs =
      ((vs.map fun v => (d, v)).find? (comboFound home fs)).map
        (fun p => mkResolved home p.1 p.2) := by
  intro vs
  induction vs with
  | nil => rfl
  | cons v vs ih =>
    by_cases hc : comboFound home fs (d, v) = true
    · rw [resolveVariants, tryVariant_eq, if_pos hc]
      simp [List.find?_cons_of_pos _ hc]
    · rw [resolveVariants, tryVariant_eq, if_neg hc]
      simp [List.find?_cons_of_neg _ hc, ih]

/-- The outer directory loop is the first-hit search over all combinations. -/
lemma resolveDirs_eq (home : String) (fs : List String) : ∀ ds : List String,
    resolveDirs home fs ds =
      ((ds.foldr (fun d acc => (variants.map fun v => (d, v)) ++ acc) []).find?
        (comboFound home fs)).map (fun p => mkResolved home p.1 p.2) := by
  intro ds
  induction ds with
  | nil => rfl
  | cons d ds ih =>
    rw [resolveDirs, resolveVariants_eq, List.foldr_cons, find?_append_or]
    cases hf : (variants.map fun v => (d, v)).find? (comboFound home fs) with
    | some p => simp
    | none => simp [ih]

/-- Claim C3 (amended): source resolution returns exactly the descriptor of the
first directory/variant combination — in the fixed iteration order — whose
executable exists, whose configuration directory exists, and whose
configuration directory contains the legacy-store file storage.json (not the
primary key-value store); when no combination qualifies, resolution is the
unresolved state (the search returns none). -/
theorem resolver_refinement (home : String) (fs : List String) :
    resolveCode home fs = specResolve home fs := by
  unfold resolveCode specResolve combosList
  exact resolveDirs_eq home fs path_dirs

/-- Claim C3, counterexample: a file system containing the executable, the
configuration directory and the primary key-value store (state.vscdb, the
store the loader reads first) — but no storage.json — satisfies the claimed
acceptance condition for the very first combination, yet resolution returns
the unresolved state. -/
theorem resolver_requires_storage_json :
    (combosList.find? (comboFoundPrimary homeH fsPrimaryOnly)).isSome = true ∧
    resolveCode homeH fsPrimaryOnly = none :=
  ⟨by decide, by decide⟩

/-! ## Lemmas about the ranker sort -/

/-- Insertion grows the length by one. -/
lemma insertDesc_length (x : ScoredRecent) :
    ∀ l, (insertDesc x l).length = l.length + 1 := by
  intro l
  induction l with
  | nil => rfl
  | cons y ys ih =>
    rw [insertDesc]
    split
    · simp [ih]
    · simp

/-- Sorting preserves the length. -/
lemma sortDesc_length : ∀ l : List ScoredRecent, (sortDesc l).length = l.length := by
  intro l
  induction l with
  | nil => rfl
  | cons x xs ih =>
    rw [sortDesc, insertDesc_length, ih]
    rfl

/-- Members of an insertion come from the inserted element or the base list. -/
lemma mem_insertDesc {x y : ScoredRecent} :
    ∀ {l}, y ∈ insertDesc x l → y = x ∨ y ∈ l := by
  intro l
  induction l with
  | nil =>
    intro h
    rw [insertDesc] at h
    exact Or.inl (List.mem_singleton.mp h)
  | cons z zs ih =>
    intro h
    rw [insertDesc] at h
    split at h
    · rcases List.mem_cons.mp h with h1 | h2
      · exact Or.inr (h1 ▸ List.mem_cons_self z zs)
      · rcases ih h2 with h3 | h4
        · exact Or.inl h3
        · exact Or.inr (List.mem_cons_of_mem z h4)
    · rcases List.mem_cons.mp h with h1 | h2
      · exact Or.inl h1
      · exact Or.inr h2

/-- Insertion preserves descending order. -/
lemma insertDesc_pairwise {x : ScoredRecent} :
    ∀ {l}, List.Pairwise (fun a b => b.score ≤ a.score) l →
      List.Pairwise (fun a b => b.score ≤ a.score) (insertDesc x l) := by
  intro l
  induction l with
  | nil => exact fun _ => List.pairwise_singleton _ x
  | cons y ys ih =>
    intro h
    rcases List.pairwise_cons.mp h with ⟨hy, hys⟩
    rw [insertDesc]
    split
    case isTrue hxy =>
      refine List.pairwise_cons.mpr ⟨?_, ih hys⟩
      intro z hz
      rcases mem_insertDesc hz with h1 | h2
      · exact h1 ▸ le_of_lt hxy
      · exact hy z h2
    case isFalse hxy =>
      refine List.pairwise_cons.mpr ⟨?_, h⟩
      intro z hz
      rcases List.mem_cons.mp hz with h1 | h2
      · exact h1 ▸ le_of_not_lt hxy
      · exact le_trans (hy z h2) (le_of_not_lt hxy)

/-- The sorted list is descending in score. -/
lemma sortDesc_pairwise :
    ∀ l : List ScoredRecent,
      List.Pairwise (fun a b => b.score ≤ a.score) (sortDesc l) := by
  intro l
  induction l with
  | nil => exact List.Pairwise.nil
  | cons x xs ih =>
    rw [sortDesc]
    exact insertDesc_pairwise ih

/-- Inserting an element of a different score leaves a score class unchanged. -/
lemma insertDesc_filter_ne {x : ScoredRecent} {q : ℚ} (hx : x.score ≠ q) :
    ∀ l, (insertDesc x l).filter (fun z => decide (z.score = q))
      = l.filter (fun z => decide (z.score = q)) := by
  intro l
  induction l with
  | nil => simp [insertDesc, hx]
  | cons y ys ih =>
    rw [insertDesc]
    split
    · by_cases hy : y.score = q
      · simp [List.filter_cons, hy, ih]
      · simp [List.filter_cons, hy, ih]
    · simp [List.filter_cons, hx]

/-- Inserting an element of score `q` puts it in front of its score class:
all elements passed over are strictly larger. -/
lemma insertDesc_filter_eq {x : ScoredRecent} {q : ℚ} (hx : x.score = q) :
    ∀ l, (insertDesc x l).filter (fun z => decide (z.score = q))
      = x :: l.filter (fun z => decide (z.score = q)) := by
  intro l
  induction l with
  | nil => simp [insertDesc, hx]
  | cons y ys ih =>
    rw [insertDesc]
    split
    case isTrue hxy =>
      have hy : ¬ y.score = q := fun hyq =>
        absurd (hx.trans hyq.symm) (ne_of_lt hxy)
      simp [List.filter_cons, hy, ih]
    case isFalse hxy =>
      simp [List.filter_cons, hx]

/-- Stability of the sort: each score class of the output is exactly the score
class of the input, in the input's order. -/
lemma sortDesc_filter (q : ℚ) :
    ∀ l : List ScoredRecent,
      (sortDesc l).filter (fun z => decide (z.score = q))
        = l.filter (fun z => decide (z.score = q)) := by
  intro l
  induction l with
  | nil => rfl
  | cons x xs ih =>
    rw [sortDesc]
    by_cases hx : x.score = q
    · rw [insertDesc_filter_eq hx, ih, List.filter_cons]
      simp [hx]
    · rw [insertDesc_filter_ne hx, ih, List.filter_cons]
      simp [hx]

/-- Claim C7: for every entry list and query, the ranker's output has length at
most 15, is sorted in descending score order, and is stable: for every score
value, the output's entries of that score form a sublist — hence appear in the
same relative order — of the pre-sort (source-order) scored list. -/
theorem ranker_bounded_sorted_stable (recents : List Recent) (query : Str)
    (pt : String) (out : List ScoredRecent)
    (h : get_ext_result_core recents query pt = some out) :
    out.length ≤ 15 ∧
    List.Pairwise (fun a b => b.score ≤ a.score) out ∧
    ∃ data, scoreRecents (lowerStr query) pt recents = some data ∧
      ∀ q : ℚ, List.Sublist
        (out.filter fun z => decide (z.score = q))
        (data.filter fun z => decide (z.score = q)) := by
  unfold get_ext_result_core at h
  cases hd : scoreRecents (lowerStr query) pt recents with
  | none =>
    simp only [hd] at h
    exact Option.noConfusion h
  | some data =>
    simp only [hd, Option.some.injEq] at h
    subst h
    refine ⟨List.length_take_le 15 (sortDesc data),
      List.Pairwise.sublist (List.take_sublist 15 (sortDesc data))
        (sortDesc_pairwise data),
      data, rfl, ?_⟩
    intro q
    have h1 := List.Sublist.filter (fun z => decide (z.score = q))
      (List.take_sublist 15 (sortDesc data))
    rw [sortDesc_filter q data] at h1
    exact h1

/-- Claim C7, witness: the ranker evaluated on a concrete one-entry list with
the empty query stays within the length bound. -/
theorem ranker_bounded_sorted_stable_witness :
    ([⟨recFolderA, mkRat 99 100⟩] : List ScoredRecent).length ≤ 15 :=
  (ranker_bounded_sorted_stable [recFolderA] [] strEmpty
    [⟨recFolderA, mkRat 99 100⟩] (by decide)).1
